import Mathlib

/-!
Shallow embedding of `mailcopy` (src/mailcopy.go), a one-shot IMAP mailbox
migration tool, together with proofs of the specification claims about it.

The embedding mirrors the two core pieces of the source:
* `copyMailbox` (mailcopy.go lines 49-132): the batched fetch/append/mark/
  expunge transfer loop for one mailbox pair.  Network effects are supplied
  by an oracle structure `MW` (one field per session-handle operation), and
  the run produces an `Outcome` together with a flat trace of protocol
  events.  The Go loop `for mbox.Messages > 0` has no syntactic bound, so the
  embedding is fuel-indexed; termination claims are stated as "a computable
  amount of fuel suffices".
* the mailbox-set resolver inside `main` (mailcopy.go lines 176-215): Go maps
  are modelled as association lists with replace-on-insert semantics
  (`gmInsert`/`gmLookup`/`gmDelete`), which captures exactly the
  insert/lookup/delete/key-iteration behaviour the code uses; iteration order
  of a Go map is arbitrary, and the theorems below quantify over the list
  order where it could matter.

Inside a batch the Go consumer is a `select` over the message channel and
the `done` error channel (mailcopy.go:94-113).  Because the fetch goroutine
closes `done` as soon as `from.Fetch` returns, both cases can be ready while
fetched messages are still buffered, and the consumer may take the `done`
branch early, abandoning the rest of the batch.  The embedding therefore
reads `MW.fetched k` as the messages the consumer actually processes in
cycle `k` — an arbitrary prefix of the delivered batch, possibly empty,
possibly all of it — so every schedule of that race is some world.  The one
remaining determinization is that a fetch error is checked after the
processed messages; no claim below depends on where inside a batch the
error case fires.
-/

namespace Mailcopy

/-- Batch limit: the Go code fixes `batch := uint32(10)` (mailcopy.go:70). -/
def batchLimit : Nat := 10

/-- A fetched message, with the fields `copyMailbox` actually consumes:
UID (mailcopy.go:108), flags, internal date and raw body (mailcopy.go:110). -/
structure Message where
  uid : Nat
  flags : List String
  internalDate : Nat
  body : List Nat
  deriving DecidableEq, Repr

/-- One protocol-visible event of a `copyMailbox` run, in issue order. -/
inductive Event where
  /-- The `from.Select(source, false)` call (mailcopy.go:50 and 126). -/
  | select : Event
  /-- The `to.Create(dest)` call (mailcopy.go:66). -/
  | create (name : String) : Event
  /-- The `from.Fetch` call over sequence numbers `[lo, hi]` (mailcopy.go:76,84). -/
  | fetch (lo hi : Nat) : Event
  /-- A `bar.Incr()` progress counter tick (mailcopy.go:106). -/
  | incr : Event
  /-- A `to.Append` of the message with the given UID; `ok` records whether
  the append succeeded (mailcopy.go:110). -/
  | append (name : String) (uid : Nat) (ok : Bool) : Event
  /-- The `from.UidStore` call marking the given UIDs deleted (mailcopy.go:119). -/
  | store (uids : List Nat) : Event
  /-- The `from.Expunge(nil)` call (mailcopy.go:122). -/
  | expunge : Event
  /-- The `log.Printf` line on a failed expunge (mailcopy.go:123). -/
  | logExpunge (msg : String) : Event
  deriving DecidableEq, Repr

/-- How a `copyMailbox` run ends. -/
inductive Outcome where
  /-- Normal `return nil`. -/
  | ok : Outcome
  /-- An error `return err`. -/
  | err (msg : String) : Outcome
  /-- A `log.Fatal(err)` on a failed `UidStore` (mailcopy.go:120): the whole
  process terminates. -/
  | fatal (msg : String) : Outcome
  /-- The fuel of the embedding ran out while the loop was still running. -/
  | outOfFuel : Outcome
  deriving DecidableEq, Repr

/-- Oracle for the two session handles: each field gives the result of the
n-th occurrence of the corresponding remote operation.  `selectRes s` is the
message count (or error) of the s-th `Select` call; `fetched k` is the list
of messages the consumer actually processes in cycle `k` — a prefix of the
delivered batch, since the select race can abandon buffered messages;
`fetchErr k` the error `from.Fetch` itself returns in cycle `k`;
`appendRes k i` the result of appending the i-th processed message of cycle
`k`; `storeRes`/`expungeRes` likewise per cycle. -/
structure MW where
  selectRes : Nat → Except String Nat
  createRes : Option String
  fetched : Nat → List Message
  fetchErr : Nat → Option String
  appendRes : Nat → Nat → Option String
  storeRes : Nat → Option String
  expungeRes : Nat → Option String

/-- The consumer loop over one batch (mailcopy.go:93-114): for each delivered
message, in order, tick the progress bar, record the UID, then attempt the
append; an append failure stops processing at once.  Returns the events, the
recorded UID list (`msgs` in the Go), and the append error if one occurred.
Note the Go increments the bar and records the UID *before* the append. -/
def processMsgs (dest : String) (app : Nat → Option String) :
    List Message → Nat → List Event × List Nat × Option String
  | [], _ => ([], [], none)
  | m :: rest, i =>
    match app i with
    | some e => ([Event.incr, Event.append dest m.uid false], [m.uid], some e)
    | none =>
      let r := processMsgs dest app rest (i + 1)
      (Event.incr :: Event.append dest m.uid true :: r.1, m.uid :: r.2.1, r.2.2)

/-- The `for mbox.Messages > 0` loop of `copyMailbox` (mailcopy.go:69-130).
`k` is the cycle index, `s` the index of the next `Select` call, `count` the
current message count of the source mailbox. -/
def runCycles (w : MW) (dest : String) :
    Nat → Nat → Nat → Nat → Outcome × List Event
  | 0, _, _, count => if count = 0 then (Outcome.ok, []) else (Outcome.outOfFuel, [])
  | fuel + 1, k, s, count =>
    if count = 0 then (Outcome.ok, [])
    else
      let batch := min batchLimit count
      let pr := processMsgs dest (w.appendRes k) (w.fetched k) 0
      match pr.2.2 with
      | some e => (Outcome.err e, Event.fetch 1 batch :: pr.1)
      | none =>
        match w.fetchErr k with
        | some e => (Outcome.err e, Event.fetch 1 batch :: pr.1)
        | none =>
          let evs1 := Event.fetch 1 batch :: pr.1 ++ [Event.store pr.2.1]
          match w.storeRes k with
          | some e => (Outcome.fatal e, evs1)
          | none =>
            let evs2 := evs1 ++ [Event.expunge] ++
              (match w.expungeRes k with
               | some e => [Event.logExpunge e]
               | none => [])
            match w.selectRes s with
            | Except.error e => (Outcome.err e, evs2 ++ [Event.select])
            | Except.ok count' =>
              let r := runCycles w dest fuel (k + 1) (s + 1) count'
              (r.1, evs2 ++ [Event.select] ++ r.2)

/-- Function `copyMailbox` (mailcopy.go:49-132): select the source; if it is empty
return immediately (before any destination-side call); otherwise create the
destination mailbox, treating the exact error text "Mailbox already exists."
as success (mailcopy.go:66), and run the batch loop. -/
def copyMailbox (w : MW) (dest : String) (fuel : Nat) : Outcome × List Event :=
  match w.selectRes 0 with
  | Except.error e => (Outcome.err e, [Event.select])
  | Except.ok n =>
    if n = 0 then (Outcome.ok, [Event.select])
    else
      match w.createRes with
      | some e =>
        if e = "Mailbox already exists." then
          let r := runCycles w dest fuel 0 1 n
          (r.1, Event.select :: Event.create dest :: r.2)
        else (Outcome.err e, [Event.select, Event.create dest])
      | none =>
        let r := runCycles w dest fuel 0 1 n
        (r.1, Event.select :: Event.create dest :: r.2)

/-- Number of progress-bar ticks (`bar.Incr()` calls) in a trace. -/
def countIncr (t : List Event) : Nat :=
  t.countP fun e => match e with | Event.incr => true | _ => false

/-- Number of successful appends in a trace. -/
def countOkAppends (t : List Event) : Nat :=
  t.countP fun e => match e with | Event.append _ _ true => true | _ => false

/-- Events of a successful run over a message list: per message, a
progress tick followed by a successful append. -/
def appendEvents (dest : String) : List Message → List Event
  | [] => []
  | m :: rest => Event.incr :: Event.append dest m.uid true :: appendEvents dest rest

/-- A world whose source mailbox is empty at select time. -/
def emptyW : MW :=
  { selectRes := fun _ => Except.ok 0
    createRes := none
    fetched := fun _ => []
    fetchErr := fun _ => none
    appendRes := fun _ _ => none
    storeRes := fun _ => none
    expungeRes := fun _ => none }

end Mailcopy

namespace Mailcopy

/-- C6: if the source mailbox has 0 messages at select time, `copyMailbox`
returns success immediately with only the select in its trace: no
destination mailbox creation and no append calls. -/
theorem copyMailbox_empty_source_noop (w : MW) (dest : String) (fuel : Nat)
    (h : w.selectRes 0 = Except.ok 0) :
    copyMailbox w dest fuel = (Outcome.ok, [Event.select]) ∧
    (∀ name, Event.create name ∉ (copyMailbox w dest fuel).2) ∧
    (∀ name uid ok, Event.append name uid ok ∉ (copyMailbox w dest fuel).2) := by
  have h1 : copyMailbox w dest fuel = (Outcome.ok, [Event.select]) := by
    simp [copyMailbox, h]
  refine ⟨h1, ?_, ?_⟩ <;> simp [h1]

/-- Witness for C6 at a concrete empty-mailbox world. -/
theorem copyMailbox_empty_source_noop_witness :
    copyMailbox emptyW "Dest" 3 = (Outcome.ok, [Event.select]) ∧
    Event.create "Dest" ∉ (copyMailbox emptyW "Dest" 3).2 ∧
    Event.append "Dest" 7 true ∉ (copyMailbox emptyW "Dest" 3).2 :=
  ⟨(copyMailbox_empty_source_noop emptyW "Dest" 3 rfl).1,
   (copyMailbox_empty_source_noop emptyW "Dest" 3 rfl).2.1 "Dest",
   (copyMailbox_empty_source_noop emptyW "Dest" 3 rfl).2.2 "Dest" 7 true⟩

/-- C7: with a non-empty source, a destination-creation failure whose error
text is exactly "Mailbox already exists." is treated as success — the run
proceeds identically to the no-error creation path — while any other
creation failure is returned as the error of the whole mailbox transfer. -/
theorem copyMailbox_create_error_handling (w : MW) (dest : String)
    (fuel n : Nat) (hsel : w.selectRes 0 = Except.ok n) (hn : n ≠ 0) :
    (w.createRes = some "Mailbox already exists." →
      copyMailbox w dest fuel =
        ((runCycles w dest fuel 0 1 n).1,
         Event.select :: Event.create dest :: (runCycles w dest fuel 0 1 n).2)) ∧
    (∀ e, w.createRes = some e → e ≠ "Mailbox already exists." →
      copyMailbox w dest fuel = (Outcome.err e, [Event.select, Event.create dest])) ∧
    (w.createRes = none →
      copyMailbox w dest fuel =
        ((runCycles w dest fuel 0 1 n).1,
         Event.select :: Event.create dest :: (runCycles w dest fuel 0 1 n).2)) := by
  refine ⟨fun hcr => ?_, fun e hcr hne => ?_, fun hcr => ?_⟩
  · simp [copyMailbox, hsel, hn, hcr]
  · simp [copyMailbox, hsel, hn, hcr, hne]
  · simp [copyMailbox, hsel, hn, hcr]

/-- A one-message world whose destination already has the mailbox: `Create`
fails with the provider's exact "already exists" error text. -/
def existsW : MW :=
  { selectRes := fun s => Except.ok (1 - s)
    createRes := some "Mailbox already exists."
    fetched := fun _ => [⟨11, ["Seen"], 0, [1]⟩]
    fetchErr := fun _ => none
    appendRes := fun _ _ => none
    storeRes := fun _ => none
    expungeRes := fun _ => none }

/-- A one-message world whose destination-side `Create` fails with some
other error text. -/
def createFailW : MW :=
  { existsW with createRes := some "connection reset" }

/-- Witness for C7: the "already exists" world proceeds exactly as the
success path would, the other creation failure is returned. -/
theorem copyMailbox_create_error_handling_witness :
    copyMailbox existsW "D" 2 =
      ((runCycles existsW "D" 2 0 1 1).1,
       Event.select :: Event.create "D" :: (runCycles existsW "D" 2 0 1 1).2) ∧
    copyMailbox createFailW "D" 2 =
      (Outcome.err "connection reset", [Event.select, Event.create "D"]) :=
  ⟨(copyMailbox_create_error_handling existsW "D" 2 1 rfl (by decide)).1 rfl,
   (copyMailbox_create_error_handling createFailW "D" 2 1 rfl (by decide)).2.1
     "connection reset" rfl (by decide)⟩

/-- A world whose very first append fails. -/
def appendFailW : MW :=
  { selectRes := fun _ => Except.ok 1
    createRes := none
    fetched := fun _ => [⟨42, [], 0, []⟩]
    fetchErr := fun _ => none
    appendRes := fun _ _ => some "append failed"
    storeRes := fun _ => none
    expungeRes := fun _ => none }

/-- Counterexample to C3 as stated: the Go code calls `bar.Incr()` before
`to.Append` (mailcopy.go:106 vs 110), so when the only append of a
one-message mailbox fails, the transferred counter has still been
incremented once — for the very message whose append failed — while zero
appends succeeded. -/
theorem incr_ticks_before_failed_append :
    (copyMailbox appendFailW "D" 2).1 = Outcome.err "append failed" ∧
    countIncr (copyMailbox appendFailW "D" 2).2 = 1 ∧
    countOkAppends (copyMailbox appendFailW "D" 2).2 = 0 := by
  decide

theorem countIncr_appendEvents (dest : String) (l : List Message) :
    countIncr (appendEvents dest l) = l.length := by
  induction l with
  | nil => simp [appendEvents, countIncr]
  | cons m rest ih => simp [appendEvents, countIncr, List.countP_cons] at ih ⊢; omega

theorem countOkAppends_appendEvents (dest : String) (l : List Message) :
    countOkAppends (appendEvents dest l) = l.length := by
  induction l with
  | nil => simp [appendEvents, countOkAppends]
  | cons m rest ih =>
    simp [appendEvents, countOkAppends, List.countP_cons] at ih ⊢; omega

/-- If every append of the batch succeeds, the consumer loop ticks and
appends each delivered message and records every UID, in order. -/
theorem processMsgs_all_ok (dest : String) (app : Nat → Option String)
    (h : ∀ j, app j = none) :
    ∀ (msgs : List Message) (n : Nat),
      processMsgs dest app msgs n = (appendEvents dest msgs, msgs.map Message.uid, none) := by
  intro msgs
  induction msgs with
  | nil => intro n; simp [processMsgs, appendEvents]
  | cons m rest ih => intro n; simp [processMsgs, h n, appendEvents, ih (n + 1)]

/-- If the first append failure of the batch is at index `i`, the consumer
loop processes exactly the first `i + 1` delivered messages — ticking the
bar and recording the UID for each of them, the failed one included — and
stops with the append error. -/
theorem processMsgs_firstFail (dest : String) (app : Nat → Option String) :
    ∀ (msgs : List Message) (n i : Nat) (e : String) (hlt : i < msgs.length),
      (∀ j, j < i → app (n + j) = none) → app (n + i) = some e →
      processMsgs dest app msgs n =
        (appendEvents dest (msgs.take i) ++
           [Event.incr, Event.append dest (msgs.get ⟨i, hlt⟩).uid false],
         (msgs.take (i + 1)).map Message.uid, some e) := by
  intro msgs
  induction msgs with
  | nil => intro n i e hlt; simp at hlt
  | cons m rest ih =>
    intro n i e hlt hok hfail
    cases i with
    | zero =>
      have hfail0 : app n = some e := by simpa using hfail
      simp [processMsgs, hfail0, appendEvents]
    | succ i' =>
      have h0 : app n = none := by simpa using hok 0 (Nat.succ_pos i')
      have hfail' : app (n + 1 + i') = some e := by
        rw [show n + 1 + i' = n + (i' + 1) by omega]; exact hfail
      have hok' : ∀ j, j < i' → app (n + 1 + j) = none := by
        intro j hj
        rw [show n + 1 + j = n + (j + 1) by omega]
        exact hok (j + 1) (by omega)
      have hlt' : i' < rest.length := by simpa using hlt
      simp [processMsgs, h0, appendEvents, ih (n + 1) i' e hlt' hok' hfail']

/-- C3 (amended): if the first append failure is at batch index `i`, the
transfer aborts immediately with that error — nothing after the failed
message is attempted, and the cycle never reaches the mark/expunge/select
steps — but the progress counter, which the code ticks before each append
attempt (mailcopy.go:106,110), has been incremented `i + 1` times for `i`
successful appends: the failed message is counted too. -/
theorem append_failure_aborts (dest : String) (app : Nat → Option String)
    (msgs : List Message) (i : Nat) (e : String) (hlt : i < msgs.length)
    (hok : ∀ j, j < i → app j = none) (hfail : app i = some e) :
    processMsgs dest app msgs 0 =
      (appendEvents dest (msgs.take i) ++
         [Event.incr, Event.append dest (msgs.get ⟨i, hlt⟩).uid false],
       (msgs.take (i + 1)).map Message.uid, some e) ∧
    countIncr (processMsgs dest app msgs 0).1 = i + 1 ∧
    countOkAppends (processMsgs dest app msgs 0).1 = i ∧
    (∀ (w : MW) (k s count fuel : Nat), count ≠ 0 →
      w.appendRes k = app → w.fetched k = msgs →
      runCycles w dest (fuel + 1) k s count =
        (Outcome.err e,
         Event.fetch 1 (min batchLimit count) :: (processMsgs dest app msgs 0).1)) := by
  have hmain := processMsgs_firstFail dest app msgs 0 i e hlt
    (by intro j hj; simpa using hok j hj) (by simpa using hfail)
  have htl : (msgs.take i).length = i := by
    simp [List.length_take]; omega
  refine ⟨hmain, ?_, ?_, ?_⟩
  · simp [hmain, countIncr, List.countP_append, List.countP_cons]
    have := countIncr_appendEvents dest (msgs.take i)
    simp [countIncr] at this
    omega
  · simp [hmain, countOkAppends, List.countP_append, List.countP_cons]
    have := countOkAppends_appendEvents dest (msgs.take i)
    simp [countOkAppends] at this
    omega
  · intro w k s count fuel hcount happ hfd
    rw [runCycles, if_neg hcount]
    rw [happ, hfd, hmain]

/-- The first append failure of `app3` is at index 1. -/
def app3 : Nat → Option String := fun j => if j = 1 then some "boom" else none

/-- A three-message batch. -/
def msgs3 : List Message := [⟨1, [], 0, []⟩, ⟨2, [], 0, []⟩, ⟨3, [], 0, []⟩]

/-- A three-message world whose second append fails. -/
def failW3 : MW :=
  { selectRes := fun _ => Except.ok 3
    createRes := none
    fetched := fun _ => msgs3
    fetchErr := fun _ => none
    appendRes := fun _ => app3
    storeRes := fun _ => none
    expungeRes := fun _ => none }

/-- Witness for the amended C3: second of three appends fails, so two
ticks, one successful append, immediate abort. -/
theorem append_failure_aborts_witness :
    processMsgs "D" app3 msgs3 0 =
      (appendEvents "D" (msgs3.take 1) ++
         [Event.incr, Event.append "D" (msgs3.get ⟨1, by decide⟩).uid false],
       (msgs3.take 2).map Message.uid, some "boom") ∧
    countIncr (processMsgs "D" app3 msgs3 0).1 = 2 ∧
    countOkAppends (processMsgs "D" app3 msgs3 0).1 = 1 ∧
    runCycles failW3 "D" 5 0 1 3 =
      (Outcome.err "boom",
       Event.fetch 1 (min batchLimit 3) :: (processMsgs "D" app3 msgs3 0).1) := by
  have h := append_failure_aborts "D" app3 msgs3 1 "boom" (by decide)
    (fun j hj => by
      have hj0 : j = 0 := Nat.lt_one_iff.mp hj
      subst hj0; rfl) rfl
  exact ⟨h.1, h.2.1, h.2.2.1, h.2.2.2 failW3 0 1 3 4 (by decide) rfl rfl⟩

/-- A trace with the expunge-failure log lines removed. -/
def dropLogs (t : List Event) : List Event :=
  t.filter fun e => match e with | Event.logExpunge _ => false | _ => true

/-- Number of expunge calls issued in a trace. -/
def expungeCount (t : List Event) : Nat :=
  t.countP fun e => match e with | Event.expunge => true | _ => false

/-- The expunge-failure log lines of a trace, in order. -/
def logFilter (t : List Event) : List String :=
  t.filterMap fun e => match e with | Event.logExpunge m => some m | _ => none

theorem processMsgs_events_shape (dest : String) (app : Nat → Option String) :
    ∀ (msgs : List Message) (n : Nat) (e : Event),
      e ∈ (processMsgs dest app msgs n).1 →
      e = Event.incr ∨ ∃ u b, e = Event.append dest u b := by
  intro msgs
  induction msgs with
  | nil => intro n e he; simp [processMsgs] at he
  | cons m rest ih =>
    intro n e he
    rcases happ : app n with _ | err
    · simp only [processMsgs, happ, List.mem_cons] at he
      rcases he with he | he | he
      · left; exact he
      · right; exact ⟨m.uid, true, he⟩
      · exact ih (n + 1) e he
    · simp only [processMsgs, happ, List.mem_cons, List.mem_singleton,
        List.not_mem_nil, or_false] at he
      rcases he with he | he
      · left; exact he
      · right; exact ⟨m.uid, false, he⟩

theorem dropLogs_processMsgs (dest : String) (app : Nat → Option String)
    (msgs : List Message) (n : Nat) :
    dropLogs (processMsgs dest app msgs n).1 = (processMsgs dest app msgs n).1 := by
  rw [dropLogs, List.filter_eq_self]
  intro e he
  rcases processMsgs_events_shape dest app msgs n e he with h | ⟨u, b, h⟩ <;>
    subst h <;> simp

theorem logFilter_processMsgs (dest : String) (app : Nat → Option String)
    (msgs : List Message) (n : Nat) :
    logFilter (processMsgs dest app msgs n).1 = [] := by
  rw [logFilter, List.filterMap_eq_nil_iff]
  intro e he
  rcases processMsgs_events_shape dest app msgs n e he with h | ⟨u, b, h⟩ <;>
    subst h <;> simp

theorem expungeCount_processMsgs (dest : String) (app : Nat → Option String)
    (msgs : List Message) (n : Nat) :
    expungeCount (processMsgs dest app msgs n).1 = 0 := by
  rw [expungeCount, List.countP_eq_zero]
  intro e he
  rcases processMsgs_events_shape dest app msgs n e he with h | ⟨u, b, h⟩ <;>
    subst h <;> simp

/-- The expunge oracle never influences the outcome of a run, nor its trace
once the expunge-failure log lines are removed. -/
theorem runCycles_expunge_indep (w w' : MW) (dest : String)
    (h1 : w.selectRes = w'.selectRes) (h3 : w.fetched = w'.fetched)
    (h4 : w.fetchErr = w'.fetchErr) (h5 : w.appendRes = w'.appendRes)
    (h6 : w.storeRes = w'.storeRes) :
    ∀ (fuel k s count : Nat),
      (runCycles w dest fuel k s count).1 = (runCycles w' dest fuel k s count).1 ∧
      dropLogs (runCycles w dest fuel k s count).2 =
        dropLogs (runCycles w' dest fuel k s count).2 := by
  intro fuel
  induction fuel with
  | zero =>
    intro k s count
    by_cases hc : count = 0 <;> simp [runCycles, hc]
  | succ fuel ih =>
    intro k s count
    by_cases hc : count = 0
    · simp [runCycles, hc]
    · rw [runCycles, runCycles, if_neg hc, if_neg hc, ← h5, ← h3, ← h4, ← h6, ← h1]
      rcases hpr : (processMsgs dest (w.appendRes k) (w.fetched k) 0).2.2 with _ | e
      · rcases hf : w.fetchErr k with _ | e
        · rcases hst : w.storeRes k with _ | e
          · rcases hsel : w.selectRes s with e | count'
            · rcases hex : w.expungeRes k with _ | e1 <;>
                rcases hex' : w'.expungeRes k with _ | e2 <;>
                simp [hpr, hf, hst, hsel, hex, hex', dropLogs, List.filter_append]
            · have ih1 := (ih (k + 1) (s + 1) count').1
              have ih2 := (ih (k + 1) (s + 1) count').2
              simp only [dropLogs] at ih2
              rcases hex : w.expungeRes k with _ | e1 <;>
                rcases hex' : w'.expungeRes k with _ | e2 <;>
                simp [hpr, hf, hst, hsel, hex, hex', dropLogs, List.filter_append, ih1, ih2]
          · simp [hpr, hf, hst]
        · simp [hpr, hf]
      · simp [hpr]

theorem runCycles_log_chara (w : MW) (dest : String) :
    ∀ (fuel k s count : Nat),
      logFilter (runCycles w dest fuel k s count).2 =
        (List.range' k (expungeCount (runCycles w dest fuel k s count).2)).filterMap
          w.expungeRes := by
  intro fuel
  induction fuel with
  | zero =>
    intro k s count
    by_cases hc : count = 0 <;> simp [runCycles, hc, logFilter, expungeCount]
  | succ fuel ih =>
    intro k s count
    by_cases hc : count = 0
    · simp [runCycles, hc, logFilter, expungeCount]
    · rw [runCycles, if_neg hc]
      have hlog := logFilter_processMsgs dest (w.appendRes k) (w.fetched k) 0
      have hcnt := expungeCount_processMsgs dest (w.appendRes k) (w.fetched k) 0
      simp only [logFilter] at hlog
      simp only [expungeCount] at hcnt
      rcases hpr : (processMsgs dest (w.appendRes k) (w.fetched k) 0).2.2 with _ | e
      · rcases hf : w.fetchErr k with _ | e
        · rcases hst : w.storeRes k with _ | e
          · rcases hsel : w.selectRes s with e | count'
            · rcases hex : w.expungeRes k with _ | e1 <;>
                simp [hpr, hf, hst, hsel, hex, logFilter, expungeCount,
                  List.filterMap_append, List.countP_append, List.countP_cons,
                  hlog, hcnt, List.range'_succ]
            · have ihc := ih (k + 1) (s + 1) count'
              simp only [logFilter, expungeCount] at ihc
              rcases hex : w.expungeRes k with _ | e1 <;>
                simp [hpr, hf, hst, hsel, hex, logFilter, expungeCount,
                  List.filterMap_append, List.countP_append, List.countP_cons,
                  hlog, hcnt, ihc, List.range'_succ]
          · simp [hpr, hf, hst, logFilter, expungeCount, List.filterMap_append,
              List.countP_append, List.countP_cons, hlog, hcnt]
        · simp [hpr, hf, logFilter, expungeCount, hlog, hcnt]
      · simp [hpr, logFilter, expungeCount, hlog, hcnt]

/-- C8: an expunge failure is non-fatal.  The outcome of any run is the one
it would have with every expunge succeeding, the traces agree once the
expunge-failure log lines are removed (so the loop still re-selects and
continues), and the log lines are exactly the errors of the expunges the run
issued (the k-th expunge call belongs to cycle k). -/
theorem expunge_failure_nonfatal (w : MW) (dest : String) (fuel : Nat) :
    (copyMailbox w dest fuel).1 =
      (copyMailbox { w with expungeRes := fun _ => none } dest fuel).1 ∧
    dropLogs (copyMailbox w dest fuel).2 =
      dropLogs (copyMailbox { w with expungeRes := fun _ => none } dest fuel).2 ∧
    logFilter (copyMailbox w dest fuel).2 =
      (List.range (expungeCount (copyMailbox w dest fuel).2)).filterMap
        w.expungeRes := by
  have hind := runCycles_expunge_indep w { w with expungeRes := fun _ => none } dest
    rfl rfl rfl rfl rfl fuel 0 1
  have hlog := runCycles_log_chara w dest fuel 0 1
  rcases hsel : w.selectRes 0 with e | n
  · simp [copyMailbox, hsel, dropLogs, logFilter, expungeCount]
  · by_cases hn : n = 0
    · subst hn; simp [copyMailbox, hsel, dropLogs, logFilter, expungeCount]
    · have hcm : ∀ v : MW, v.selectRes 0 = Except.ok n → v.createRes = w.createRes →
          (w.createRes = none ∨ w.createRes = some "Mailbox already exists." →
            copyMailbox v dest fuel =
              ((runCycles v dest fuel 0 1 n).1,
               Event.select :: Event.create dest :: (runCycles v dest fuel 0 1 n).2)) ∧
          (∀ e, w.createRes = some e → e ≠ "Mailbox already exists." →
            copyMailbox v dest fuel =
              (Outcome.err e, [Event.select, Event.create dest])) := by
        intro v hv hvc
        constructor
        · rintro (hcr | hcr) <;> simp [copyMailbox, hv, hn, hvc, hcr]
        · intro e hcr hne; simp [copyMailbox, hv, hn, hvc, hcr, hne]
      rcases hcr : w.createRes with _ | e
      · have h1 := ((hcm w hsel rfl).1 (Or.inl hcr))
        have h2 := ((hcm { w with expungeRes := fun _ => none } hsel rfl).1 (Or.inl hcr))
        rw [hcr] at hind h2
        rw [h1, h2]
        refine ⟨(hind n).1, ?_, ?_⟩
        · have := (hind n).2
          simp [dropLogs] at this ⊢
          exact this
        · have := hlog n
          simp [logFilter, expungeCount, List.countP_cons, List.range_eq_range'] at this ⊢
          exact this
      · by_cases he : e = "Mailbox already exists."
        · subst he
          have h1 := ((hcm w hsel rfl).1 (Or.inr hcr))
          have h2 := ((hcm { w with expungeRes := fun _ => none } hsel rfl).1 (Or.inr hcr))
          rw [hcr] at hind h2
          rw [h1, h2]
          refine ⟨(hind n).1, ?_, ?_⟩
          · have := (hind n).2
            simp [dropLogs] at this ⊢
            exact this
          · have := hlog n
            simp [logFilter, expungeCount, List.countP_cons, List.range_eq_range'] at this ⊢
            exact this
        · have h1 := ((hcm w hsel rfl).2 e hcr he)
          have h2 := ((hcm { w with expungeRes := fun _ => none } hsel rfl).2 e hcr he)
          rw [hcr] at h2
          rw [h1, h2]
          simp [dropLogs, logFilter, expungeCount]

/-- Effect of one event on the set of UIDs successfully appended to `dest`
so far. -/
def seenStep (dest : String) (e : Event) (seen : List Nat) : List Nat :=
  match e with
  | Event.append nm u true => if nm = dest then u :: seen else seen
  | _ => seen

/-- The UIDs successfully appended to `dest` by the events of a trace,
accumulated onto `seen`. -/
def seenAfter (dest : String) : List Event → List Nat → List Nat
  | [], seen => seen
  | e :: rest, seen => seenAfter dest rest (seenStep dest e seen)

/-- Scans a trace left to right and checks that every UID of every
mark-deleted (`store`) call was successfully appended to `dest` strictly
earlier in the trace (or lies in the initial accumulator `seen`). -/
def marksJustified (dest : String) : List Event → List Nat → Bool
  | [], _ => true
  | e :: rest, seen =>
    (match e with
     | Event.store uids => uids.all fun u => decide (u ∈ seen)
     | _ => true) && marksJustified dest rest (seenStep dest e seen)

theorem marksJustified_append (dest : String) (t1 t2 : List Event) :
    ∀ seen, marksJustified dest (t1 ++ t2) seen =
      (marksJustified dest t1 seen && marksJustified dest t2 (seenAfter dest t1 seen)) := by
  induction t1 with
  | nil => intro seen; simp [marksJustified, seenAfter]
  | cons e rest ih =>
    intro seen
    simp [marksJustified, seenAfter, ih, Bool.and_assoc]

theorem marksJustified_appendEvents (dest : String) (l : List Message) :
    ∀ seen, marksJustified dest (appendEvents dest l) seen = true := by
  induction l with
  | nil => intro seen; simp [appendEvents, marksJustified]
  | cons m rest ih => intro seen; simp [appendEvents, marksJustified, seenStep, ih]

theorem seenAfter_appendEvents (dest : String) (l : List Message) :
    ∀ seen, seenAfter dest (appendEvents dest l) seen =
      (l.map Message.uid).reverse ++ seen := by
  induction l with
  | nil => intro seen; simp [appendEvents, seenAfter]
  | cons m rest ih => intro seen; simp [appendEvents, seenAfter, seenStep, ih]

theorem processMsgs_mj (dest : String) (app : Nat → Option String) :
    ∀ (msgs : List Message) (n : Nat) (seen : List Nat),
      marksJustified dest (processMsgs dest app msgs n).1 seen = true := by
  intro msgs
  induction msgs with
  | nil => intro n seen; simp [processMsgs, marksJustified]
  | cons m rest ih =>
    intro n seen
    rcases happ : app n with _ | e <;>
      simp [processMsgs, happ, marksJustified, seenStep, ih]

/-- A batch whose appends all succeeded delivers exactly the tick/append
events and UID list of its messages, in order. -/
theorem processMsgs_none_shape (dest : String) (app : Nat → Option String) :
    ∀ (msgs : List Message) (n : Nat),
      (processMsgs dest app msgs n).2.2 = none →
      processMsgs dest app msgs n = (appendEvents dest msgs, msgs.map Message.uid, none) := by
  intro msgs
  induction msgs with
  | nil => intro n _; simp [processMsgs, appendEvents]
  | cons m rest ih =>
    intro n h
    rcases happ : app n with _ | e
    · have h2 : (processMsgs dest app rest (n + 1)).2.2 = none := by
        simp [processMsgs, happ] at h; exact h
      simp [processMsgs, happ, appendEvents, ih (n + 1) h2]
    · simp [processMsgs, happ] at h

/-- A block "all appends of the batch, then the mark of exactly those UIDs"
passes the scanner, whatever the accumulator, provided everything after the
mark does. -/
theorem mj_good_block (dest : String) (msgs : List Message) (extra : List Event)
    (hextra : ∀ seen, marksJustified dest extra seen = true) :
    ∀ seen, marksJustified dest
      (appendEvents dest msgs ++ Event.store (msgs.map Message.uid) :: extra) seen = true := by
  intro seen
  rw [marksJustified_append, marksJustified_appendEvents, Bool.true_and,
    seenAfter_appendEvents]
  simp only [marksJustified, seenStep, Bool.and_eq_true]
  refine ⟨?_, hextra _⟩
  rw [List.all_eq_true]
  intro u hu
  simp only [decide_eq_true_eq, List.mem_append, List.mem_reverse]
  exact Or.inl hu

theorem runCycles_marks (w : MW) (dest : String) :
    ∀ (fuel k s count : Nat) (seen : List Nat),
      marksJustified dest (runCycles w dest fuel k s count).2 seen = true := by
  intro fuel
  induction fuel with
  | zero =>
    intro k s count seen
    by_cases hc : count = 0 <;> simp [runCycles, hc, marksJustified]
  | succ fuel ih =>
    intro k s count seen
    by_cases hc : count = 0
    · simp [runCycles, hc, marksJustified]
    · rw [runCycles, if_neg hc]
      rcases hpr : (processMsgs dest (w.appendRes k) (w.fetched k) 0).2.2 with _ | e
      · have hshape := processMsgs_none_shape dest (w.appendRes k) (w.fetched k) 0 hpr
        have hev : (processMsgs dest (w.appendRes k) (w.fetched k) 0).1
            = appendEvents dest (w.fetched k) := by rw [hshape]
        have huid : (processMsgs dest (w.appendRes k) (w.fetched k) 0).2.1
            = List.map Message.uid (w.fetched k) := by rw [hshape]
        rcases hf : w.fetchErr k with _ | e
        · rcases hst : w.storeRes k with _ | e
          · rcases hsel : w.selectRes s with e | count'
            · rcases hex : w.expungeRes k with _ | e1
              · simp only [hpr, hf, hst, hsel, hex, hev, huid, List.cons_append,
                  List.append_assoc, List.singleton_append, List.append_nil, List.nil_append]
                simp only [marksJustified, seenStep, Bool.true_and]
                exact mj_good_block dest (w.fetched k) [Event.expunge, Event.select]
                  (fun s2 => by simp [marksJustified, seenStep]) seen
              · simp only [hpr, hf, hst, hsel, hex, hev, huid, List.cons_append,
                  List.append_assoc, List.singleton_append, List.append_nil, List.nil_append]
                simp only [marksJustified, seenStep, Bool.true_and]
                exact mj_good_block dest (w.fetched k)
                  [Event.expunge, Event.logExpunge e1, Event.select]
                  (fun s2 => by simp [marksJustified, seenStep]) seen
            · rcases hex : w.expungeRes k with _ | e1
              · simp only [hpr, hf, hst, hsel, hex, hev, huid, List.cons_append,
                  List.append_assoc, List.singleton_append, List.append_nil, List.nil_append]
                simp only [marksJustified, seenStep, Bool.true_and]
                exact mj_good_block dest (w.fetched k)
                  (Event.expunge :: Event.select ::
                    (runCycles w dest fuel (k + 1) (s + 1) count').2)
                  (fun s2 => by simp [marksJustified, seenStep, ih]) seen
              · simp only [hpr, hf, hst, hsel, hex, hev, huid, List.cons_append,
                  List.append_assoc, List.singleton_append, List.append_nil, List.nil_append]
                simp only [marksJustified, seenStep, Bool.true_and]
                exact mj_good_block dest (w.fetched k)
                  (Event.expunge :: Event.logExpunge e1 :: Event.select ::
                    (runCycles w dest fuel (k + 1) (s + 1) count').2)
                  (fun s2 => by simp [marksJustified, seenStep, ih]) seen
          · simp only [hpr, hf, hst, hev, huid, List.cons_append, List.append_assoc,
              List.singleton_append, List.append_nil, List.nil_append]
            simp only [marksJustified, seenStep, Bool.true_and]
            exact mj_good_block dest (w.fetched k) []
              (fun s2 => by simp [marksJustified]) seen
        · simp only [hpr, hf]
          simp [marksJustified, seenStep, processMsgs_mj]
      · simp only [hpr]
        simp [marksJustified, seenStep, processMsgs_mj]

theorem copyMailbox_marks (w : MW) (dest : String) (fuel : Nat) (seen : List Nat) :
    marksJustified dest (copyMailbox w dest fuel).2 seen = true := by
  rcases hsel : w.selectRes 0 with e | n
  · simp [copyMailbox, hsel, marksJustified]
  · by_cases hn : n = 0
    · simp [copyMailbox, hsel, hn, marksJustified]
    · rcases hcr : w.createRes with _ | e
      · simp [copyMailbox, hsel, hn, hcr, marksJustified, seenStep, runCycles_marks]
      · by_cases he : e = "Mailbox already exists." <;>
          simp [copyMailbox, hsel, hn, hcr, he, marksJustified, seenStep, runCycles_marks]

theorem marksJustified_split (dest : String) :
    ∀ (t1 : List Event) (U : List Nat) (t2 : List Event) (seen : List Nat),
      marksJustified dest (t1 ++ Event.store U :: t2) seen = true →
      ∀ u ∈ U, u ∈ seenAfter dest t1 seen := by
  intro t1
  induction t1 with
  | nil =>
    intro U t2 seen h u hu
    simp only [List.nil_append, marksJustified, Bool.and_eq_true, List.all_eq_true,
      decide_eq_true_eq] at h
    simpa [seenAfter] using h.1 u hu
  | cons e rest ih =>
    intro U t2 seen h u hu
    simp only [List.cons_append, marksJustified, Bool.and_eq_true] at h
    have hrec := ih U t2 (seenStep dest e seen) h.2 u hu
    simpa [seenAfter] using hrec

theorem seenAfter_subset (dest : String) :
    ∀ (t : List Event) (seen : List Nat) (u : Nat),
      u ∈ seenAfter dest t seen → Event.append dest u true ∈ t ∨ u ∈ seen := by
  intro t
  induction t with
  | nil => intro seen u hu; right; simpa [seenAfter] using hu
  | cons e rest ih =>
    intro seen u hu
    rw [show seenAfter dest (e :: rest) seen
        = seenAfter dest rest (seenStep dest e seen) from rfl] at hu
    rcases ih (seenStep dest e seen) u hu with hmem | hmem
    · exact Or.inl (List.mem_cons_of_mem e hmem)
    · rcases e with _ | name | ⟨lo, hi⟩ | _ | ⟨nm, u2, b⟩ | uids | _ | m
      case append =>
        cases b
        · right; simpa [seenStep] using hmem
        · by_cases hd : nm = dest
          · subst hd
            simp only [seenStep, if_pos rfl] at hmem
            rcases List.mem_cons.mp hmem with hequ | hmem2
            · left; rw [hequ]; exact List.mem_cons_self _ _
            · right; exact hmem2
          · right
            simp only [seenStep, if_neg hd] at hmem
            exact hmem
      all_goals right
      all_goals simpa [seenStep] using hmem

/-- C4: append-before-delete ordering.  Whenever a run of the transfer loop
issues a mark-deleted (`UidStore`) call, every UID in that call had already
been successfully appended to the destination earlier in the trace: no
source message is ever marked deleted before its destination append was
confirmed. -/
theorem uid_marked_only_after_append (w : MW) (dest : String) (fuel : Nat)
    (t1 : List Event) (U : List Nat) (t2 : List Event) (u : Nat)
    (hsplit : (copyMailbox w dest fuel).2 = t1 ++ Event.store U :: t2) (hu : u ∈ U) :
    Event.append dest u true ∈ t1 := by
  have hmj : marksJustified dest (t1 ++ Event.store U :: t2) [] = true := by
    rw [← hsplit]; exact copyMailbox_marks w dest fuel []
  have hseen := marksJustified_split dest t1 U t2 [] hmj u hu
  rcases seenAfter_subset dest t1 [] u hseen with h | h
  · exact h
  · simp at h

/-- A one-message world in which everything succeeds. -/
def markW : MW :=
  { selectRes := fun s => Except.ok (1 - s)
    createRes := none
    fetched := fun _ => [⟨9, [], 0, []⟩]
    fetchErr := fun _ => none
    appendRes := fun _ _ => none
    storeRes := fun _ => none
    expungeRes := fun _ => none }

/-- Witness for C4: in the one-message run, the single `store [9]` is
preceded by the successful append of UID 9. -/
theorem uid_marked_only_after_append_witness :
    Event.append "D" 9 true ∈
      [Event.select, Event.create "D", Event.fetch 1 1, Event.incr,
       Event.append "D" 9 true] :=
  uid_marked_only_after_append markW "D" 1
    [Event.select, Event.create "D", Event.fetch 1 1, Event.incr,
     Event.append "D" 9 true] [9] [Event.expunge, Event.select] 9
    (by decide) (by decide)

/-- The schedule of per-cycle batch sizes when every cycle consumes its full
batch: each cycle fetches `min batchLimit n` messages (mailcopy.go:70-73)
and, once that whole batch is appended, marked and expunged, the count drops
by exactly that much. -/
def cycleCounts (n : Nat) : List Nat :=
  if h : n = 0 then []
  else min batchLimit n :: cycleCounts (n - min batchLimit n)
termination_by n
decreasing_by
  simp only [batchLimit]
  omega

/-- Recognizes fetch events. -/
def isFetch (e : Event) : Bool :=
  match e with | Event.fetch _ _ => true | _ => false

/-- The events of one failure-free cycle whose fetch covered `[1, b]` and
whose consumer processed exactly `msgs` (the select race allows `msgs` to be
any prefix of the delivered batch). -/
def goodCycleEvents (dest : String) (msgs : List Message) (b : Nat) : List Event :=
  Event.fetch 1 b :: appendEvents dest msgs ++
    [Event.store (msgs.map Message.uid), Event.expunge, Event.select]

theorem cycleCounts_zero : cycleCounts 0 = [] := by
  rw [cycleCounts]; simp

theorem cycleCounts_pos (n : Nat) (h : n ≠ 0) :
    cycleCounts n = min batchLimit n :: cycleCounts (n - min batchLimit n) := by
  rw [cycleCounts]; simp [h]

theorem cycleCounts_single (n : Nat) (h0 : n ≠ 0) (hle : n ≤ batchLimit) :
    cycleCounts n = [n] := by
  rw [cycleCounts_pos n h0, Nat.min_eq_right hle]
  simp [cycleCounts_zero]

theorem cycleCounts_length_le (n : Nat) : (cycleCounts n).length ≤ n := by
  induction n using Nat.strong_induction_on with
  | _ n ih =>
    by_cases h : n = 0
    · simp [h, cycleCounts_zero]
    · rw [cycleCounts_pos n h, List.length_cons]
      have := ih (n - min batchLimit n) (by simp only [batchLimit]; omega)
      simp only [batchLimit] at *
      omega

/-- The source-mailbox count before each cycle, as forced by the loop's own
bookkeeping when no new mail arrives and every expunge removes exactly the
marked (= appended-and-recorded) messages: cycle `k` removes the messages
the consumer actually processed, `(f k).length`.  The select race makes that
number anything from 0 up to the batch size. -/
def rcOf (f : Nat → List Message) (N : Nat) : Nat → Nat
  | 0 => N
  | k + 1 => rcOf f N k - (f k).length

/-- The count before cycle `k` in the run of world `w` that starts at `N`. -/
def raceCounts (w : MW) (N : Nat) (k : Nat) : Nat := rcOf w.fetched N k

theorem rcOf_le (f : Nat → List Message) (N : Nat) :
    ∀ (a b : Nat), rcOf f N (a + b) ≤ rcOf f N a := by
  intro a b
  induction b with
  | zero => simp
  | succ j ih =>
    have h1 : rcOf f N (a + (j + 1)) = rcOf f N (a + j) - (f (a + j)).length := rfl
    rw [h1]
    exact le_trans (Nat.sub_le _ _) ih

/-- The (count, appended) pair of each executed cycle, from cycle `k` on,
while the count is positive, for up to `F` cycles. -/
def executedCycles (w : MW) (N : Nat) : Nat → Nat → List (Nat × Nat)
  | 0, _ => []
  | F + 1, k =>
    if raceCounts w N k = 0 then []
    else (raceCounts w N k, (w.fetched k).length) :: executedCycles w N F (k + 1)

/-- The trace of a failure-free (possibly raced) run from cycle `k` on, for
up to `F` cycles. -/
def raceTail (w : MW) (dest : String) (N : Nat) : Nat → Nat → List Event
  | 0, _ => []
  | F + 1, k =>
    if raceCounts w N k = 0 then []
    else goodCycleEvents dest (w.fetched k) (min batchLimit (raceCounts w N k)) ++
      raceTail w dest N F (k + 1)

theorem filter_isFetch_appendEvents (dest : String) (l : List Message) :
    (appendEvents dest l).filter isFetch = [] := by
  induction l with
  | nil => simp [appendEvents]
  | cons m rest ih => simp [appendEvents, isFetch, ih]

theorem countOkAppends_goodCycleEvents (dest : String) (msgs : List Message) (b : Nat) :
    countOkAppends (goodCycleEvents dest msgs b) = msgs.length := by
  have hb := countOkAppends_appendEvents dest msgs
  simp only [countOkAppends] at hb ⊢
  simp [goodCycleEvents, List.countP_cons, List.countP_append, hb]

/-- Fold step extracting per-cycle successful-append counts from a trace:
a fetch opens a new cycle counter, each successful append bumps the current
one. -/
def perCycleStep (acc : List Nat) (e : Event) : List Nat :=
  match e with
  | Event.fetch _ _ => 0 :: acc
  | Event.append _ _ true => match acc with | [] => [] | c :: cs => (c + 1) :: cs
  | _ => acc

/-- The list of per-cycle successful-append counts of a trace, in cycle
order. -/
def perCycleAppends (t : List Event) : List Nat :=
  (t.foldl perCycleStep []).reverse

theorem foldl_perCycleStep_appendEvents (dest : String) :
    ∀ (l : List Message) (c : Nat) (cs : List Nat),
      (appendEvents dest l).foldl perCycleStep (c :: cs) = (c + l.length) :: cs := by
  intro l
  induction l with
  | nil => intro c cs; simp [appendEvents]
  | cons m rest ih =>
    intro c cs
    rw [appendEvents]
    simp only [List.foldl_cons, perCycleStep, ih]
    have : c + 1 + rest.length = c + (rest.length + 1) := by omega
    rw [this]
    simp

theorem foldl_perCycleStep_goodCycleEvents (dest : String) (msgs : List Message)
    (b : Nat) (acc : List Nat) :
    (goodCycleEvents dest msgs b).foldl perCycleStep acc = msgs.length :: acc := by
  simp only [goodCycleEvents, List.foldl_cons, List.foldl_append, perCycleStep,
    foldl_perCycleStep_appendEvents]
  simp

/-- Race-aware master lemma: if the s-th select refreshes the count to
`raceCounts w N s` (no new mail; expunge removes exactly what cycle `s - 1`
processed) and no operation fails, the loop runs and its trace is
`raceTail`; once the count hits 0 it exits successfully.  No assumption is
made on how much of each batch the consumer manages to process. -/
theorem runCycles_race (w : MW) (dest : String) (N : Nat)
    (hsel : ∀ s, w.selectRes s = Except.ok (raceCounts w N s))
    (happ : ∀ k i, w.appendRes k i = none)
    (hferr : ∀ k, w.fetchErr k = none)
    (hst : ∀ k, w.storeRes k = none)
    (hexp : ∀ k, w.expungeRes k = none) :
    ∀ (F k : Nat), raceCounts w N (k + F) = 0 →
      runCycles w dest F k (k + 1) (raceCounts w N k) =
        (Outcome.ok, raceTail w dest N F k) := by
  intro F
  induction F with
  | zero =>
    intro k hdone
    rw [Nat.add_zero] at hdone
    rw [hdone]
    simp [runCycles, raceTail]
  | succ F ih =>
    intro k hdone
    by_cases h0 : raceCounts w N k = 0
    · rw [h0]
      simp [runCycles, raceTail, h0]
    · have hpm := processMsgs_all_ok dest (w.appendRes k) (happ k) (w.fetched k) 0
      have hdone2 : raceCounts w N ((k + 1) + F) = 0 := by
        rw [show (k + 1) + F = k + (F + 1) by omega]
        exact hdone
      have hrec := ih (k + 1) hdone2
      rw [runCycles, if_neg h0, raceTail, if_neg h0]
      simp only [hpm, hferr k, hst k, hexp k, hsel (k + 1), hrec, goodCycleEvents,
        List.cons_append, List.append_assoc, List.singleton_append, List.nil_append,
        List.append_nil]

theorem raceTail_fetches (w : MW) (dest : String) (N : Nat) :
    ∀ (F k : Nat),
      (raceTail w dest N F k).filter isFetch =
        (executedCycles w N F k).map (fun p => Event.fetch 1 (min batchLimit p.1)) := by
  intro F
  induction F with
  | zero => intro k; simp [raceTail, executedCycles]
  | succ F ih =>
    intro k
    by_cases h0 : raceCounts w N k = 0
    · simp [raceTail, executedCycles, h0]
    · rw [raceTail, if_neg h0, executedCycles, if_neg h0]
      simp [goodCycleEvents, List.filter_append, filter_isFetch_appendEvents, isFetch, ih]

theorem raceTail_countOk (w : MW) (dest : String) (N : Nat)
    (hlen : ∀ k, (w.fetched k).length ≤ raceCounts w N k) :
    ∀ (F k : Nat),
      countOkAppends (raceTail w dest N F k) =
        raceCounts w N k - raceCounts w N (k + F) := by
  intro F
  induction F with
  | zero => intro k; simp [raceTail, countOkAppends]
  | succ F ih =>
    intro k
    by_cases h0 : raceCounts w N k = 0
    · simp [raceTail, h0, countOkAppends]
    · rw [raceTail, if_neg h0]
      have hadd : countOkAppends (goodCycleEvents dest (w.fetched k)
            (min batchLimit (raceCounts w N k)) ++ raceTail w dest N F (k + 1)) =
          countOkAppends (goodCycleEvents dest (w.fetched k)
            (min batchLimit (raceCounts w N k))) +
          countOkAppends (raceTail w dest N F (k + 1)) := by
        simp [countOkAppends, List.countP_append]
      rw [hadd, countOkAppends_goodCycleEvents, ih (k + 1)]
      have h1 : raceCounts w N (k + 1) = raceCounts w N k - (w.fetched k).length := rfl
      have h2 : (w.fetched k).length ≤ raceCounts w N k := hlen k
      have h3 : raceCounts w N ((k + 1) + F) ≤ raceCounts w N (k + 1) :=
        rcOf_le w.fetched N (k + 1) F
      rw [show k + (F + 1) = (k + 1) + F by omega]
      omega

theorem raceTail_perCycle (w : MW) (dest : String) (N : Nat) :
    ∀ (F k : Nat) (acc : List Nat),
      (raceTail w dest N F k).foldl perCycleStep acc =
        ((executedCycles w N F k).map Prod.snd).reverse ++ acc := by
  intro F
  induction F with
  | zero => intro k acc; simp [raceTail, executedCycles]
  | succ F ih =>
    intro k acc
    by_cases h0 : raceCounts w N k = 0
    · simp [raceTail, executedCycles, h0]
    · rw [raceTail, if_neg h0, executedCycles, if_neg h0]
      rw [List.foldl_append, foldl_perCycleStep_goodCycleEvents, ih (k + 1)]
      simp

theorem executedCycles_le (w : MW) (N : Nat)
    (hlen : ∀ k, (w.fetched k).length ≤ min batchLimit (raceCounts w N k)) :
    ∀ (F k : Nat) (p : Nat × Nat), p ∈ executedCycles w N F k →
      p.2 ≤ min batchLimit p.1 ∧ p.2 ≤ batchLimit := by
  intro F
  induction F with
  | zero => intro k p hp; simp [executedCycles] at hp
  | succ F ih =>
    intro k p hp
    by_cases h0 : raceCounts w N k = 0
    · simp [executedCycles, h0] at hp
    · rw [executedCycles, if_neg h0] at hp
      rcases List.mem_cons.mp hp with hp | hp
      · subst hp
        exact ⟨hlen k, le_trans (hlen k) (Nat.min_le_left _ _)⟩
      · exact ih (k + 1) p hp

/-- The messages the consumer actually processes per cycle in a raced run
over a two-message mailbox: one message in cycle 0, the other in cycle 1. -/
def raceFetched : Nat → List Message := fun k =>
  if k = 0 then [⟨1, [], 0, []⟩] else if k = 1 then [⟨2, [], 0, []⟩] else []

/-- A failure-free world over a two-message mailbox in which each cycle's
consumer takes the closed `done` branch of the select (mailcopy.go:94-104)
after a single append, abandoning the other buffered message.  No new mail
arrives and every expunge removes exactly the marked batch, so the claim's
preconditions hold, yet each cycle transfers one message, not
`min(batchLimit, count)`. -/
def raceW : MW :=
  { selectRes := fun s => Except.ok (rcOf raceFetched 2 s)
    createRes := none
    fetched := raceFetched
    fetchErr := fun _ => none
    appendRes := fun _ _ => none
    storeRes := fun _ => none
    expungeRes := fun _ => none }

/-- Counterexample to C1 as stated: on a two-message mailbox (so `N ≤ 10`),
with no new mail, no failures, and every expunge removing the marked batch,
the run still takes two fetch/append cycles — cycle 0 has count 2 but
appends only 1 message, not `min(10, 2) = 2` — because the Go select can
take the closed `done` channel while a fetched message is still buffered
(mailcopy.go:94-104).  The run completes and the total transferred is still
2. -/
theorem two_cycles_for_a_two_message_mailbox :
    (copyMailbox raceW "D" 2).1 = Outcome.ok ∧
    ((copyMailbox raceW "D" 2).2.filter isFetch).length = 2 ∧
    perCycleAppends (copyMailbox raceW "D" 2).2 = [1, 1] ∧
    executedCycles raceW 2 2 0 = [(2, 1), (1, 1)] ∧
    min batchLimit 2 = 2 ∧
    countOkAppends (copyMailbox raceW "D" 2).2 = 2 := by
  decide

/-- C1 (amended): with no new mail, no failures, and expunge removing each
cycle's marked batch, every cycle's fetch covers `[1, min(batchLimit, c)]`
at its then-current count `c`, and each cycle appends the number of messages
its consumer processed before the select took the `done` branch — at most
`min(batchLimit, c) ≤ batchLimit` but possibly fewer, so a mailbox with
`N ≤ batchLimit` may need several cycles.  Over any run that drains the
mailbox (count 0 after `K` cycles) the per-cycle appended counts still sum
to the initial count `N`. -/
theorem transfer_batches_race (w : MW) (dest : String) (N K : Nat)
    (hsel : ∀ s, w.selectRes s = Except.ok (raceCounts w N s))
    (hlen : ∀ k, (w.fetched k).length ≤ min batchLimit (raceCounts w N k))
    (happ : ∀ k i, w.appendRes k i = none)
    (hferr : ∀ k, w.fetchErr k = none)
    (hst : ∀ k, w.storeRes k = none)
    (hexp : ∀ k, w.expungeRes k = none)
    (hcr : w.createRes = none)
    (hN : N ≠ 0) (hK : raceCounts w N K = 0) :
    (copyMailbox w dest K).1 = Outcome.ok ∧
    (copyMailbox w dest K).2.filter isFetch =
      (executedCycles w N K 0).map (fun p => Event.fetch 1 (min batchLimit p.1)) ∧
    perCycleAppends (copyMailbox w dest K).2 =
      (executedCycles w N K 0).map Prod.snd ∧
    (∀ p ∈ executedCycles w N K 0, p.2 ≤ min batchLimit p.1 ∧ p.2 ≤ batchLimit) ∧
    countOkAppends (copyMailbox w dest K).2 = N := by
  have hsel0 : w.selectRes 0 = Except.ok N := hsel 0
  have hrg := runCycles_race w dest N hsel happ hferr hst hexp K 0 (by simpa using hK)
  have hrg2 : runCycles w dest K 0 1 N = (Outcome.ok, raceTail w dest N K 0) := hrg
  have hcm : copyMailbox w dest K =
      (Outcome.ok, Event.select :: Event.create dest :: raceTail w dest N K 0) := by
    simp [copyMailbox, hsel0, hN, hcr, hrg2]
  rw [hcm]
  dsimp only
  refine ⟨rfl, ?_, ?_, fun p hp => executedCycles_le w N hlen K 0 p hp, ?_⟩
  · rw [show (Event.select :: Event.create dest :: raceTail w dest N K 0).filter isFetch
        = (raceTail w dest N K 0).filter isFetch from by simp [isFetch]]
    exact raceTail_fetches w dest N K 0
  · rw [show perCycleAppends (Event.select :: Event.create dest :: raceTail w dest N K 0)
        = perCycleAppends (raceTail w dest N K 0) from by
      simp [perCycleAppends, perCycleStep]]
    rw [perCycleAppends, raceTail_perCycle w dest N K 0 []]
    simp
  · rw [show countOkAppends (Event.select :: Event.create dest :: raceTail w dest N K 0)
        = countOkAppends (raceTail w dest N K 0) from by
      simp [countOkAppends, List.countP_cons]]
    rw [raceTail_countOk w dest N
      (fun k => le_trans (hlen k) (Nat.min_le_right _ _)) K 0]
    have hz : raceCounts w N (0 + K) = 0 := by simpa using hK
    rw [hz]
    simp [raceCounts, rcOf]

/-- Witness for the amended C1 at the raced two-message world: two executed
cycles, counts (2,1) with one append each, total 2. -/
theorem transfer_batches_race_witness :
    (copyMailbox raceW "D" 2).1 = Outcome.ok ∧
    (copyMailbox raceW "D" 2).2.filter isFetch =
      (executedCycles raceW 2 2 0).map (fun p => Event.fetch 1 (min batchLimit p.1)) ∧
    perCycleAppends (copyMailbox raceW "D" 2).2 =
      (executedCycles raceW 2 2 0).map Prod.snd ∧
    ((2, 1) ∈ executedCycles raceW 2 2 0 → 1 ≤ min batchLimit 2 ∧ 1 ≤ batchLimit) ∧
    countOkAppends (copyMailbox raceW "D" 2).2 = 2 := by
  have h := transfer_batches_race raceW "D" 2 2
    (fun s => rfl)
    (fun k => by
      match k with
      | 0 => decide
      | 1 => decide
      | (j + 2) =>
        show (raceFetched (j + 2)).length ≤ min batchLimit (rcOf raceFetched 2 (j + 2))
        simp [raceFetched])
    (fun k i => rfl) (fun k => rfl) (fun k => rfl) (fun k => rfl) rfl
    (by decide) (by decide)
  exact ⟨h.1, h.2.1, h.2.2.1, fun hm => h.2.2.2.1 (2, 1) hm, h.2.2.2.2⟩

/-- A world whose consumer never processes any message: each cycle's select
takes the closed `done` branch immediately, before the buffered message
(mailcopy.go:94-104).  Nothing is appended, marked or expunged, so the
count stays 1 — consistent with "no new messages" and "every expunge
removes the marked batch" (which is empty) — and every operation succeeds. -/
def stallW : MW :=
  { selectRes := fun _ => Except.ok 1
    createRes := none
    fetched := fun _ => []
    fetchErr := fun _ => none
    appendRes := fun _ _ => none
    storeRes := fun _ => none
    expungeRes := fun _ => none }

/-- Counterexample to C9 as stated: under the claim's preconditions the
count need not decrease by `min(batchLimit, count)` — here every cycle
decreases it by 0 (`perCycleAppends` is all zeros though
`min batchLimit 1 = 1`) — and the loop is still running after five cycles
although the claimed schedule (`cycleCounts 1 = [1]`) finishes in one. -/
theorem stalled_loop_keeps_spinning :
    (copyMailbox stallW "D" 5).1 = Outcome.outOfFuel ∧
    perCycleAppends (copyMailbox stallW "D" 5).2 = [0, 0, 0, 0, 0] ∧
    min batchLimit 1 = 1 ∧
    (cycleCounts 1).length = 1 := by
  refine ⟨by decide, by decide, by decide, ?_⟩
  rw [cycleCounts_single 1 (by decide) (by decide)]
  rfl

/-- When every cycle consumes its full batch, the count follows the
`cycleCounts` schedule and reaches 0 within `(cycleCounts m).length`
further cycles. -/
theorem fullDrain_drains (w : MW) (N : Nat)
    (hfull : ∀ j, (w.fetched j).length = min batchLimit (raceCounts w N j)) :
    ∀ (m k : Nat), raceCounts w N k = m →
      raceCounts w N (k + (cycleCounts m).length) = 0 := by
  intro m
  induction m using Nat.strong_induction_on with
  | _ m ihm =>
    intro k hm
    by_cases h0 : m = 0
    · subst h0
      simpa [cycleCounts_zero] using hm
    · have hnext : raceCounts w N (k + 1) = m - min batchLimit m := by
        have h1 : raceCounts w N (k + 1) =
            raceCounts w N k - (w.fetched k).length := rfl
        rw [h1, hfull k, hm]
      have hlt : m - min batchLimit m < m := by simp only [batchLimit]; omega
      have hrec := ihm (m - min batchLimit m) hlt (k + 1) hnext
      rw [cycleCounts_pos m h0, List.length_cons]
      rw [show k + ((cycleCounts (m - min batchLimit m)).length + 1)
          = (k + 1) + (cycleCounts (m - min batchLimit m)).length by omega]
      exact hrec

/-- C9 (amended): each cycle decreases the count by exactly the number of
messages its consumer processed — possibly fewer than
`min(batchLimit, count)`, even zero, under the select race — so the loop
exits (`Done`) precisely when the cumulative appended count reaches `N`:
with the count at 0 after `K` cycles, fuel `K` returns success.  The
originally claimed bound is recovered only under the additional assumption
that every cycle consumes its full batch: then the count follows
`cycleCounts N` and `(cycleCounts N).length ≤ N` cycles drain the
mailbox. -/
theorem transfer_loop_drains (w : MW) (dest : String) (N K : Nat)
    (hsel : ∀ s, w.selectRes s = Except.ok (raceCounts w N s))
    (happ : ∀ k i, w.appendRes k i = none)
    (hferr : ∀ k, w.fetchErr k = none)
    (hst : ∀ k, w.storeRes k = none)
    (hexp : ∀ k, w.expungeRes k = none)
    (hcr : w.createRes = none)
    (hK : raceCounts w N K = 0) :
    (copyMailbox w dest K).1 = Outcome.ok ∧
    ((∀ j, (w.fetched j).length = min batchLimit (raceCounts w N j)) →
      raceCounts w N ((cycleCounts N).length) = 0) ∧
    (cycleCounts N).length ≤ N := by
  refine ⟨?_, ?_, cycleCounts_length_le N⟩
  · by_cases hN : N = 0
    · subst hN
      have hsel0 : w.selectRes 0 = Except.ok 0 := hsel 0
      simp [copyMailbox, hsel0]
    · have hsel0 : w.selectRes 0 = Except.ok N := hsel 0
      have hrg := runCycles_race w dest N hsel happ hferr hst hexp K 0 (by simpa using hK)
      have hrg2 : runCycles w dest K 0 1 N = (Outcome.ok, raceTail w dest N K 0) := hrg
      simp [copyMailbox, hsel0, hN, hcr, hrg2]
  · intro hfull
    have := fullDrain_drains w N hfull N 0 rfl
    simpa using this

/-- The full-batch consumer schedule over a seven-message mailbox: cycle 0
processes all seven messages, later cycles see an empty mailbox. -/
def drainFetched : Nat → List Message := fun k =>
  if k = 0 then (List.range 7).map (fun i => ⟨i + 1, [], 0, []⟩) else []

/-- A failure-free, full-drain world over a seven-message mailbox. -/
def drainW : MW :=
  { selectRes := fun s => Except.ok (rcOf drainFetched 7 s)
    createRes := none
    fetched := drainFetched
    fetchErr := fun _ => none
    appendRes := fun _ _ => none
    storeRes := fun _ => none
    expungeRes := fun _ => none }

theorem drainFetched_rc_succ : ∀ i, rcOf drainFetched 7 (i + 1) = 0 := by
  intro i
  induction i with
  | zero => decide
  | succ j ih =>
    have h1 : rcOf drainFetched 7 (j + 2) =
        rcOf drainFetched 7 (j + 1) - (drainFetched (j + 1)).length := rfl
    rw [h1, ih]
    simp

/-- Witness for the amended C9 at the full-drain seven-message world: one
cycle of fuel drains it, and the `cycleCounts` bound applies. -/
theorem transfer_loop_drains_witness :
    (copyMailbox drainW "D" 1).1 = Outcome.ok ∧
    raceCounts drainW 7 ((cycleCounts 7).length) = 0 ∧
    (cycleCounts 7).length ≤ 7 := by
  have h := transfer_loop_drains drainW "D" 7 1
    (fun s => rfl)
    (fun k i => rfl) (fun k => rfl) (fun k => rfl) (fun k => rfl) rfl
    (by decide)
  refine ⟨h.1, h.2.1 ?_, h.2.2⟩
  intro j
  match j with
  | 0 => decide
  | (i + 1) =>
    show (drainFetched (i + 1)).length =
      min batchLimit (rcOf drainFetched 7 (i + 1))
    rw [drainFetched_rc_succ i]
    simp [drainFetched]

/-! ### The mailbox-set resolver (mailcopy.go lines 176-221)

Go's `map[string]string` is modelled as an association list with nodup keys:
`gmInsert` replaces any previous binding, `gmLookup` finds the current one,
`gmDelete` removes it.  Go map iteration order is arbitrary; every theorem
below either quantifies over the list order or sorts, so no order is assumed.
-/

/-- Go map lookup `v, ok := m[k]`. -/
def gmLookup : List (String × String) → String → Option String
  | [], _ => none
  | p :: rest, k => if p.1 = k then some p.2 else gmLookup rest k

/-- Go map deletion `delete(m, k)`. -/
def gmDelete : List (String × String) → String → List (String × String)
  | [], _ => []
  | p :: rest, k => if p.1 = k then gmDelete rest k else p :: gmDelete rest k

/-- Go map assignment `m[k] = v` (replaces any previous binding). -/
def gmInsert (m : List (String × String)) (k v : String) : List (String × String) :=
  (k, v) :: gmDelete m k

/-- The key set of the map, as iterated by `for k := range m`. -/
def gmKeys (m : List (String × String)) : List String := m.map Prod.fst

theorem gmLookup_gmDelete (m : List (String × String)) (k k2 : String) :
    gmLookup (gmDelete m k) k2 = if k2 = k then none else gmLookup m k2 := by
  induction m with
  | nil => simp [gmDelete, gmLookup]
  | cons p rest ih =>
    by_cases hp : p.1 = k
    · rw [gmDelete, if_pos hp, ih]
      by_cases hk : k2 = k
      · simp [hk]
      · have hpk2 : ¬p.1 = k2 := fun h => hk (hp.symm.trans h).symm
        simp [hk, gmLookup, hpk2]
    · rw [gmDelete, if_neg hp, gmLookup, ih]
      by_cases hpk2 : p.1 = k2
      · have hk : ¬k2 = k := fun h => hp (hpk2.trans h)
        simp [hpk2, hk, gmLookup]
      · by_cases hk : k2 = k <;> simp [hpk2, hk, hp, gmLookup]

theorem gmLookup_gmInsert (m : List (String × String)) (k v : String) (k2 : String) :
    gmLookup (gmInsert m k v) k2 = if k2 = k then some v else gmLookup m k2 := by
  by_cases hk : k2 = k
  · simp [gmInsert, gmLookup, hk]
  · have hkk : ¬k = k2 := fun h => hk h.symm
    rw [gmInsert, gmLookup, gmLookup_gmDelete]
    simp [hk, hkk]

theorem gmKeys_cons (p : String × String) (m : List (String × String)) :
    gmKeys (p :: m) = p.1 :: gmKeys m := rfl

theorem gmKeys_mem_gmDelete (m : List (String × String)) (k x : String) :
    x ∈ gmKeys (gmDelete m k) ↔ x ∈ gmKeys m ∧ x ≠ k := by
  induction m with
  | nil => simp [gmDelete, gmKeys]
  | cons p rest ih =>
    by_cases hp : p.1 = k
    · rw [gmDelete, if_pos hp, ih, gmKeys_cons]
      simp only [List.mem_cons]
      constructor
      · rintro ⟨hx, hne⟩; exact ⟨Or.inr hx, hne⟩
      · rintro ⟨hx | hx, hne⟩
        · exact absurd (hx.trans hp) hne
        · exact ⟨hx, hne⟩
    · rw [gmDelete, if_neg hp, gmKeys_cons, gmKeys_cons]
      simp only [List.mem_cons, ih]
      constructor
      · rintro (hx | ⟨hx, hne⟩)
        · exact ⟨Or.inl hx, fun h => hp ((hx.symm.trans h : p.1 = k))⟩
        · exact ⟨Or.inr hx, hne⟩
      · rintro ⟨hx | hx, hne⟩
        · exact Or.inl hx
        · exact Or.inr ⟨hx, hne⟩

theorem gmKeys_nodup_gmDelete (m : List (String × String)) (k : String)
    (h : (gmKeys m).Nodup) : (gmKeys (gmDelete m k)).Nodup := by
  induction m with
  | nil => simp [gmDelete, gmKeys]
  | cons p rest ih =>
    rw [gmKeys_cons, List.nodup_cons] at h
    by_cases hp : p.1 = k
    · rw [gmDelete, if_pos hp]
      exact ih h.2
    · rw [gmDelete, if_neg hp, gmKeys_cons, List.nodup_cons]
      refine ⟨?_, ih h.2⟩
      intro hmem
      exact h.1 ((gmKeys_mem_gmDelete rest k p.1).mp hmem).1

theorem gmKeys_nodup_gmInsert (m : List (String × String)) (k v : String)
    (h : (gmKeys m).Nodup) : (gmKeys (gmInsert m k v)).Nodup := by
  rw [gmInsert, gmKeys_cons, List.nodup_cons]
  refine ⟨?_, gmKeys_nodup_gmDelete m k h⟩
  intro hmem
  exact ((gmKeys_mem_gmDelete m k k).mp hmem).2 rfl

theorem gmKeys_mem_iff_lookup (m : List (String × String)) (x : String) :
    x ∈ gmKeys m ↔ (gmLookup m x).isSome = true := by
  induction m with
  | nil => simp [gmKeys, gmLookup]
  | cons p rest ih =>
    by_cases hp : p.1 = x
    · rw [gmKeys_cons, gmLookup, if_pos hp]
      simp [hp.symm]
    · have hxp : ¬x = p.1 := fun h => hp h.symm
      rw [gmKeys_cons, gmLookup, if_neg hp]
      simp [hxp, ih]

/-- Seeding the `mailboxes` map: each candidate name maps to itself
(mailcopy.go:179-181 and 188-190). -/
def seedMap (candidates : List String) : List (String × String) :=
  candidates.foldl (fun m c => gmInsert m c c) []

/-- The candidate map, plus whether discovery (`listMailboxes`) was invoked:
a non-empty `Include` list short-circuits discovery entirely
(mailcopy.go:178-194). -/
def resolveCandidates (includeList discovered : List String) :
    List (String × String) × Bool :=
  if includeList.isEmpty then (seedMap discovered, true)
  else (seedMap includeList, false)

/-- The rename pass (mailcopy.go:196-201): a mapping entry rewrites the
destination of an already-selected candidate; keys not in the candidate map
are ignored. -/
def applyMapping (m mapping : List (String × String)) : List (String × String) :=
  mapping.foldl
    (fun m kv => if (gmLookup m kv.1).isSome then gmInsert m kv.1 kv.2 else m) m

/-- The exclusion pass (mailcopy.go:203-207). -/
def applyExclude (m : List (String × String)) (exclude : List String) :
    List (String × String) :=
  exclude.foldl (fun m e => gmDelete m e) m

/-- The resolver of `main` (mailcopy.go:176-221): seed the candidate map,
apply the rename mapping and the exclusion list, then emit the plan sorted
ascending by source name (`sort.Strings`, mailcopy.go:215), each source
paired with its map value; the boolean records whether discovery was used.
The keys are nodup, so the sorted key list is the unique ascending
permutation and any correct sort models `sort.Strings`; `insertionSort`
keeps the definition executable. -/
def resolverPlan (includeList discovered : List String)
    (mapping : List (String × String)) (exclude : List String) :
    List (String × String) × Bool :=
  let c := resolveCandidates includeList discovered
  let m := applyExclude (applyMapping c.1 mapping) exclude
  ((List.insertionSort (· ≤ ·) (gmKeys m)).map (fun k => (k, (gmLookup m k).getD k)),
   c.2)

/-- The plan as §4.1/§8 of the spec word it: the discovered set,
deduplicated, minus `exclude`, sorted ascending by source name, each
candidate paired with `mapping[c]` when present, else `c` unchanged.
Stated from the spec, for comparison with `resolverPlan`. -/
def specPlan (discovered : List String) (mapping : List (String × String))
    (exclude : List String) : List (String × String) :=
  (List.insertionSort (· ≤ ·)
      (discovered.dedup.filter fun c => decide (c ∉ exclude))).map
    (fun c => (c, (gmLookup mapping c).getD c))

theorem applyMapping_cons (m : List (String × String)) (kv : String × String)
    (rest : List (String × String)) :
    applyMapping m (kv :: rest) =
      applyMapping (if (gmLookup m kv.1).isSome then gmInsert m kv.1 kv.2 else m) rest := rfl

theorem applyExclude_cons (m : List (String × String)) (e : String)
    (rest : List String) :
    applyExclude m (e :: rest) = applyExclude (gmDelete m e) rest := rfl

theorem seedMap_lookup (L : List String) (k : String) :
    gmLookup (seedMap L) k = if k ∈ L then some k else none := by
  suffices h : ∀ (L2 : List String) (m : List (String × String)) (k : String),
      gmLookup (L2.foldl (fun m c => gmInsert m c c) m) k =
        if k ∈ L2 then some k else gmLookup m k by
    simpa [seedMap, gmLookup] using h L [] k
  intro L2
  induction L2 with
  | nil => intro m k; simp
  | cons c rest ih =>
    intro m k
    rw [List.foldl_cons, ih]
    by_cases hk : k ∈ rest
    · simp [hk]
    · rw [gmLookup_gmInsert]
      by_cases hkc : k = c <;> simp [hk, hkc]

theorem seedMap_keys_nodup (L : List String) : (gmKeys (seedMap L)).Nodup := by
  suffices h : ∀ (L2 : List String) (m : List (String × String)),
      (gmKeys m).Nodup →
      (gmKeys (L2.foldl (fun m c => gmInsert m c c) m)).Nodup by
    exact h L [] (by simp [gmKeys])
  intro L2
  induction L2 with
  | nil => intro m h; simpa using h
  | cons c rest ih =>
    intro m h
    rw [List.foldl_cons]
    exact ih _ (gmKeys_nodup_gmInsert m c c h)

theorem applyMapping_lookup :
    ∀ (mapping : List (String × String)), (mapping.map Prod.fst).Nodup →
      ∀ (m : List (String × String)) (k : String),
        gmLookup (applyMapping m mapping) k =
          match gmLookup m k with
          | none => none
          | some v => some ((gmLookup mapping k).getD v) := by
  intro mapping
  induction mapping with
  | nil =>
    intro _ m k
    rcases h : gmLookup m k with _ | v <;> simp [applyMapping, gmLookup, h]
  | cons kv rest ih =>
    intro hN m k
    rw [List.map_cons, List.nodup_cons] at hN
    rw [applyMapping_cons, ih hN.2]
    by_cases hk : k = kv.1
    · subst hk
      have hrest : gmLookup rest kv.1 = none := by
        rcases hr : gmLookup rest kv.1 with _ | v
        · rfl
        · exact absurd ((gmKeys_mem_iff_lookup rest kv.1).mpr (by simp [hr])) hN.1
      rcases hm : gmLookup m kv.1 with _ | v
      · simp [hm, gmLookup, hrest]
      · simp [hm, gmLookup, gmLookup_gmInsert, hrest]
    · have hkk : ¬kv.1 = k := fun h => hk h.symm
      by_cases hs : (gmLookup m kv.1).isSome = true
      · simp [hs, gmLookup_gmInsert, hk, gmLookup, hkk]
      · simp [hs, gmLookup, hkk]

theorem applyMapping_keys_nodup :
    ∀ (mapping m : List (String × String)),
      (gmKeys m).Nodup → (gmKeys (applyMapping m mapping)).Nodup := by
  intro mapping
  induction mapping with
  | nil => intro m h; simpa [applyMapping] using h
  | cons kv rest ih =>
    intro m h
    rw [applyMapping_cons]
    by_cases hs : (gmLookup m kv.1).isSome = true
    · simp only [hs, if_true]
      exact ih _ (gmKeys_nodup_gmInsert m kv.1 kv.2 h)
    · simp only [hs, if_false]
      exact ih _ h

theorem applyExclude_lookup :
    ∀ (exclude : List String) (m : List (String × String)) (k : String),
      gmLookup (applyExclude m exclude) k =
        if k ∈ exclude then none else gmLookup m k := by
  intro exclude
  induction exclude with
  | nil => intro m k; simp [applyExclude]
  | cons e rest ih =>
    intro m k
    rw [applyExclude_cons, ih, gmLookup_gmDelete]
    by_cases h1 : k ∈ rest <;> by_cases h2 : k = e <;> simp [h1, h2]

theorem applyExclude_keys_nodup :
    ∀ (exclude : List String) (m : List (String × String)),
      (gmKeys m).Nodup → (gmKeys (applyExclude m exclude)).Nodup := by
  intro exclude
  induction exclude with
  | nil => intro m h; simpa [applyExclude] using h
  | cons e rest ih =>
    intro m h
    rw [applyExclude_cons]
    exact ih _ (gmKeys_nodup_gmDelete m e h)

/-- Lookup in the fully-resolved candidate map, for any candidate list `L`
(the discovered names or the include list). -/
theorem finalMap_lookup (L : List String) (mapping : List (String × String))
    (exclude : List String) (hN : (mapping.map Prod.fst).Nodup) (k : String) :
    gmLookup (applyExclude (applyMapping (seedMap L) mapping) exclude) k =
      if k ∈ exclude then none
      else if k ∈ L then some ((gmLookup mapping k).getD k) else none := by
  rw [applyExclude_lookup, applyMapping_lookup mapping hN, seedMap_lookup]
  by_cases h1 : k ∈ exclude <;> by_cases h2 : k ∈ L <;> simp [h1, h2]

theorem finalMap_keys_nodup (L : List String) (mapping : List (String × String))
    (exclude : List String) :
    (gmKeys (applyExclude (applyMapping (seedMap L) mapping) exclude)).Nodup :=
  applyExclude_keys_nodup exclude _
    (applyMapping_keys_nodup mapping _ (seedMap_keys_nodup L))

theorem finalMap_keys_mem (L : List String) (mapping : List (String × String))
    (exclude : List String) (hN : (mapping.map Prod.fst).Nodup) (k : String) :
    k ∈ gmKeys (applyExclude (applyMapping (seedMap L) mapping) exclude) ↔
      k ∈ L ∧ k ∉ exclude := by
  rw [gmKeys_mem_iff_lookup, finalMap_lookup L mapping exclude hN k]
  by_cases h1 : k ∈ exclude <;> by_cases h2 : k ∈ L <;> simp [h1, h2]

/-- C2: with an empty `include`, the resolver's plan is exactly the
spec-worded one — the discovered names, deduplicated, minus `exclude`,
sorted ascending by source name, each paired with its `mapping` image when
present, else itself.  `mapping` models a Go map, so its keys are nodup. -/
theorem resolver_empty_include_matches_spec (discovered : List String)
    (mapping : List (String × String)) (exclude : List String)
    (hN : (mapping.map Prod.fst).Nodup) :
    (resolverPlan [] discovered mapping exclude).1 =
      specPlan discovered mapping exclude := by
  have hkeysmem := fun x => finalMap_keys_mem discovered mapping exclude hN x
  have hkeysnodup := finalMap_keys_nodup discovered mapping exclude
  have hSmem : ∀ x, x ∈ (discovered.dedup.filter fun c => decide (c ∉ exclude)) ↔
      x ∈ discovered ∧ x ∉ exclude := by
    intro x; simp [List.mem_filter, List.mem_dedup]
  have hSnodup : (discovered.dedup.filter fun c => decide (c ∉ exclude)).Nodup :=
    (List.nodup_dedup discovered).filter _
  have hperm :
      (gmKeys (applyExclude (applyMapping (seedMap discovered) mapping) exclude)).Perm
        (discovered.dedup.filter fun c => decide (c ∉ exclude)) :=
    (List.perm_ext_iff_of_nodup hkeysnodup hSnodup).mpr
      (fun a => by rw [hkeysmem a, hSmem a])
  have hsorteq : List.insertionSort (· ≤ ·)
        (gmKeys (applyExclude (applyMapping (seedMap discovered) mapping) exclude)) =
      List.insertionSort (· ≤ ·)
        (discovered.dedup.filter fun c => decide (c ∉ exclude)) :=
    List.eq_of_perm_of_sorted
      ((List.perm_insertionSort _ _).trans (hperm.trans (List.perm_insertionSort _ _).symm))
      (List.sorted_insertionSort _ _) (List.sorted_insertionSort _ _)
  show (List.insertionSort (· ≤ ·)
      (gmKeys (applyExclude (applyMapping (seedMap discovered) mapping) exclude))).map
        (fun k => (k,
          (gmLookup (applyExclude (applyMapping (seedMap discovered) mapping) exclude)
            k).getD k)) =
    specPlan discovered mapping exclude
  rw [specPlan, hsorteq]
  apply List.map_congr_left
  intro a ha
  have haS := (hSmem a).mp ((List.perm_insertionSort _ _).mem_iff.mp ha)
  have hval : gmLookup (applyExclude (applyMapping (seedMap discovered) mapping) exclude)
      a = some ((gmLookup mapping a).getD a) := by
    rw [finalMap_lookup discovered mapping exclude hN a]
    simp [haS.1, haS.2]
  rw [hval]
  simp

/-- Witness for C2 at the spec example: mapping Sent→Archive/Sent,
exclude Drafts, discovery INBOX/Sent/Drafts. -/
theorem resolver_empty_include_matches_spec_witness :
    (resolverPlan [] ["INBOX", "Sent", "Drafts"] [("Sent", "Archive/Sent")]
        ["Drafts"]).1 =
      specPlan ["INBOX", "Sent", "Drafts"] [("Sent", "Archive/Sent")] ["Drafts"] :=
  resolver_empty_include_matches_spec ["INBOX", "Sent", "Drafts"]
    [("Sent", "Archive/Sent")] ["Drafts"] (by decide)

/-- C5: with a non-empty `include`, the plan is independent of the discovery
result, the discovery flag is false (`listMailboxes` is not invoked), the
candidate key set is exactly `include`, and each planned pair still draws its
destination from `mapping` when present, else keeps the source name. -/
theorem resolver_nonempty_include_skips_discovery
    (includeList D1 D2 : List String) (mapping : List (String × String))
    (exclude : List String) (hne : includeList ≠ [])
    (hN : (mapping.map Prod.fst).Nodup) :
    resolverPlan includeList D1 mapping exclude =
      resolverPlan includeList D2 mapping exclude ∧
    (resolverPlan includeList D1 mapping exclude).2 = false ∧
    (∀ x, x ∈ gmKeys (resolveCandidates includeList D1).1 ↔ x ∈ includeList) ∧
    (∀ src dst, (src, dst) ∈ (resolverPlan includeList D1 mapping exclude).1 →
      src ∈ includeList ∧ src ∉ exclude ∧ dst = (gmLookup mapping src).getD src) := by
  have hni : includeList.isEmpty = false := by
    cases includeList
    · exact absurd rfl hne
    · rfl
  have hcand : ∀ D : List String,
      resolveCandidates includeList D = (seedMap includeList, false) := by
    intro D; simp [resolveCandidates, hni]
  refine ⟨?_, ?_, ?_, ?_⟩
  · simp [resolverPlan, hcand]
  · simp [resolverPlan, hcand]
  · intro x
    rw [hcand D1]
    rw [show (seedMap includeList, false).1 = seedMap includeList from rfl,
      gmKeys_mem_iff_lookup, seedMap_lookup]
    by_cases hx : x ∈ includeList <;> simp [hx]
  · intro src dst hmem
    have hplan : (resolverPlan includeList D1 mapping exclude).1 =
        (List.insertionSort (· ≤ ·)
          (gmKeys (applyExclude (applyMapping (seedMap includeList) mapping)
            exclude))).map
          (fun k => (k,
            (gmLookup (applyExclude (applyMapping (seedMap includeList) mapping) exclude)
              k).getD k)) := by
      simp [resolverPlan, hcand]
    rw [hplan] at hmem
    rcases List.mem_map.mp hmem with ⟨k, hk, hkeq⟩
    have hkmem := (List.perm_insertionSort _ _).mem_iff.mp hk
    have hchar := (finalMap_keys_mem includeList mapping exclude hN k).mp hkmem
    have hval : gmLookup (applyExclude (applyMapping (seedMap includeList) mapping)
        exclude) k = some ((gmLookup mapping k).getD k) := by
      rw [finalMap_lookup includeList mapping exclude hN k]
      simp [hchar.1, hchar.2]
    rw [hval] at hkeq
    simp only [Option.getD_some] at hkeq
    rw [Prod.mk.injEq] at hkeq
    obtain ⟨h1, h2⟩ := hkeq
    subst h1
    subst h2
    exact ⟨hchar.1, hchar.2, rfl⟩

/-- Witness for C5: include [A, B], mapping A→A2, exclude B, two different
discovery results. -/
theorem resolver_nonempty_include_skips_discovery_witness :
    resolverPlan ["A", "B"] ["X", "Y"] [("A", "A2")] ["B"] =
      resolverPlan ["A", "B"] [] [("A", "A2")] ["B"] ∧
    (resolverPlan ["A", "B"] ["X", "Y"] [("A", "A2")] ["B"]).2 = false ∧
    ("A" ∈ gmKeys (resolveCandidates ["A", "B"] ["X", "Y"]).1 ↔ "A" ∈ ["A", "B"]) ∧
    ("A" ∈ ["A", "B"] ∧ "A" ∉ ["B"] ∧ "A2" = (gmLookup [("A", "A2")] "A").getD "A") := by
  have h := resolver_nonempty_include_skips_discovery ["A", "B"] ["X", "Y"] []
    [("A", "A2")] ["B"] (by decide) (by decide)
  exact ⟨h.1, h.2.1, h.2.2.1 "A", h.2.2.2 "A" "A2" (by decide)⟩

/-- The list-only branch of `main` (mailcopy.go:158-168): the goroutine
sends the `from.List` error into a one-slot buffered channel that no one
ever reads; the loop prints each delivered mailbox name, and `main` returns
(process exit status 0) whatever the listing result was.  The result triple
is (printed names, exit status, the value left unread in the `done`
channel). -/
def runListOnly (delivered : List String) (listResult : Option String) :
    List String × Nat × Option String :=
  (delivered, 0, listResult)

/-- C10: in list-only mode the program prints the delivered names and exits
with status 0 even when the listing operation fails; the listing error is
parked in the never-read channel, so changing it changes neither the output
nor the exit status. -/
theorem list_mode_ignores_list_error (delivered : List String) (e : String) :
    (runListOnly delivered (some e)).1 = delivered ∧
    (runListOnly delivered (some e)).2.1 = 0 ∧
    (runListOnly delivered (some e)).2.2 = some e ∧
    (∀ r1 r2 : Option String,
      (runListOnly delivered r1).1 = (runListOnly delivered r2).1 ∧
      (runListOnly delivered r1).2.1 = (runListOnly delivered r2).2.1) :=
  ⟨rfl, rfl, rfl, fun _ _ => ⟨rfl, rfl⟩⟩

end Mailcopy
